import Mathlib

/-!
A verification development for the `teatree` tree-view widget.

The Go source is shallowly embedded:

* `TItem` / `TForest` mirror `TreeItem` and `[]*TreeItem`.  The Go code
  identifies nodes by pointers and keeps `Parent` / `ParentTree`
  back-references; under the documented structural invariant (a node occurs
  in exactly one parent's child list, the parent chain is acyclic and ends
  at the tree), a node is identified here by its access path — the list of
  child indices from the top-level item list — and the parent pointer is the
  path minus its last index.
* The caller-supplied hooks `OpenFunc` / `CloseFunc` are external
  collaborators; their presence is modelled by booleans and their invocation
  by an emitted event list, tagged by the toggled node's name.
* `lipgloss` styling is presentation-only: a rendered row is modelled as a
  `Row` value recording whether the focused or unfocused style was applied
  and the exact text the core composed (indent, chevron, icon, name).
  `lipgloss.JoinVertical` stacks blocks of rows; an empty string block
  contributes one blank line.
* Machine integers (`topline`, `bottomline`) are modelled as `Int`;
  the scroll-counting arithmetic never approaches overflow.
* A Go `panic` (out-of-range index) is modelled by an `Option`-style
  failure outcome.
-/

namespace Teatree

mutual

/-- Mirror of Go `TreeItem`: name, icon, `CanHaveChildren`, `Open`,
presence of the `OpenFunc` / `CloseFunc` hooks, and the child list.
The opaque `Data` payload is never read by the core and is omitted. -/
inductive TItem where
  | mk (Name Icon : String) (CanHaveChildren Open OpenFunc CloseFunc : Bool)
       (Children : TForest)

/-- Mirror of Go `[]*TreeItem` (a child list / the top-level item list). -/
inductive TForest where
  | nil
  | cons (head : TItem) (tail : TForest)

end

def TItem.Name : TItem → String
  | .mk n _ _ _ _ _ _ => n

def TItem.Icon : TItem → String
  | .mk _ i _ _ _ _ _ => i

def TItem.CanHaveChildren : TItem → Bool
  | .mk _ _ c _ _ _ _ => c

def TItem.Open : TItem → Bool
  | .mk _ _ _ o _ _ _ => o

def TItem.OpenFunc : TItem → Bool
  | .mk _ _ _ _ f _ _ => f

def TItem.CloseFunc : TItem → Bool
  | .mk _ _ _ _ _ f _ => f

def TItem.Children : TItem → TForest
  | .mk _ _ _ _ _ _ ch => ch

def TItem.setOpen : TItem → Bool → TItem
  | .mk n i c _ f g ch, o => .mk n i c o f g ch

def TItem.setChildren : TItem → TForest → TItem
  | .mk n i c o f g _, ch => .mk n i c o f g ch

def TForest.length : TForest → Nat
  | .nil => 0
  | .cons _ tl => tl.length + 1

def TForest.get? : TForest → Nat → Option TItem
  | .nil, _ => none
  | .cons c _, 0 => some c
  | .cons _ tl, n + 1 => tl.get? n

def TForest.set : TForest → Nat → TItem → TForest
  | .nil, _, _ => .nil
  | .cons _ tl, 0, it => .cons it tl
  | .cons c tl, n + 1, it => .cons c (tl.set n it)

def TForest.append : TForest → TForest → TForest
  | .nil, l => l
  | .cons c tl, l => .cons c (tl.append l)

def TForest.isEmpty : TForest → Bool
  | .nil => true
  | .cons _ _ => false

def TForest.getLast? : TForest → Option TItem
  | .nil => none
  | .cons c .nil => some c
  | .cons _ (.cons c tl) => TForest.getLast? (.cons c tl)

def TForest.ofList : List TItem → TForest
  | [] => .nil
  | c :: l => .cons c (TForest.ofList l)

/-- Mirror of Go `NewItem`: a fresh item is closed (`Open = false`).
The `data` argument is opaque to the core and omitted. -/
def NewItem (name icon : String) (canHaveChildren : Bool) (children : TForest)
    (openFunc closeFunc : Bool) : TItem :=
  .mk name icon canHaveChildren false openFunc closeFunc children

/-- Path resolution inside one item: follow child indices. -/
def subAt : TItem → List Nat → Option TItem
  | it, [] => some it
  | it, i :: p =>
    match it.Children.get? i with
    | none => none
    | some c => subAt c p

/-- Path resolution from the top-level item list.  `none` on the empty path:
the tree aggregate itself is not an item. -/
def forestAt (f : TForest) : List Nat → Option TItem
  | [] => none
  | i :: p =>
    match f.get? i with
    | none => none
    | some it => subAt it p

/-- The sibling list of the node at `p` (Go `ti.Parent.GetItems()`):
the top-level list when the parent is the tree, else the parent's children. -/
def siblingsOf (f : TForest) (p : List Nat) : Option TForest :=
  if p = [] then none
  else
    match p.dropLast with
    | [] => some f
    | pre => (forestAt f pre).map TItem.Children

/-- Mirror of the loop in Go `TreeItem.SelectNext`, on the reversed active
path.  `descend` is Go's flag of the same name; climbing to the parent drops
the innermost index, i.e. moves to the tail of the reversed path.  The result
is the newly activated path, or `none` when the active item is unchanged
(the climb reached the tree with no next sibling). -/
def selectNextRev (f : TForest) : Bool → List Nat → Option (List Nat)
  | _, [] => none
  | descend, x :: rp =>
    let p := (x :: rp).reverse
    match forestAt f p with
    | none => none
    | some it =>
      if descend ∧ it.Open = true ∧ it.Children.isEmpty = false then some (p ++ [0])
      else
        match siblingsOf f p with
        | none => none
        | some sibs =>
          if x + 1 < sibs.length then some (rp.reverse ++ [x + 1])
          else
            match rp with
            | [] => none
            | _ :: _ => selectNextRev f false rp

/-- Go `TreeItem.SelectNext` on the node at path `p` (the descent flag
starts as `true`). -/
def selNext (f : TForest) (p : List Nat) : Option (List Nat) :=
  selectNextRev f true p.reverse

mutual

/-- The descent loop of Go `TreeItem.SelectPrevious`: while the candidate
`CanHaveChildren && Open`, move to its last child (`Children[len-1]`);
result is the relative path descended.  On an open candidate with an empty
child list the Go code indexes `Children[-1]` and fails: `none`. -/
def TItem.descendLast : TItem → Option (List Nat)
  | .mk _ _ chc op _ _ children =>
    if chc ∧ op then TForest.descendLastOf 0 children
    else some []

/-- Walk to the last element of the child list (tracking its index `i`)
and keep descending there.  An empty list is the out-of-range failure. -/
def TForest.descendLastOf : Nat → TForest → Option (List Nat)
  | _, .nil => none
  | i, .cons c .nil => (TItem.descendLast c).map (fun q => i :: q)
  | i, .cons _ (.cons c tl) => TForest.descendLastOf (i + 1) (.cons c tl)

end

/-- Outcome of Go `TreeItem.SelectPrevious`: activate a new path, leave the
active item unchanged, or fail with an out-of-range index access. -/
inductive NavResult where
  | moveTo (p : List Nat)
  | noChange
  | outOfRange
deriving DecidableEq

/-- Mirror of Go `TreeItem.SelectPrevious` on the node at path `p`:
find the node among its siblings; with a previous sibling, run the
last-child descent from it; at index 0 activate the parent item, or stop
when the parent is the tree. -/
def selPrev (f : TForest) (p : List Nat) : NavResult :=
  match forestAt f p, siblingsOf f p, p.getLast? with
  | some _, some sibs, some x =>
    if 1 ≤ x then
      match sibs.get? (x - 1) with
      | none => .noChange
      | some newItem =>
        match newItem.descendLast with
        | none => .outOfRange
        | some q => .moveTo (p.dropLast ++ [x - 1] ++ q)
    else
      match p.dropLast with
      | [] => .noChange
      | pre => .moveTo pre
  | _, _, _ => .noChange

/-- A hook invocation observed by the environment: Go `ToggleChildren`
calls `OpenFunc(ti)` / `CloseFunc(ti)` when present; the event is tagged
with the toggled node's name. -/
inductive HEvent where
  | openFired (name : String)
  | closeFired (name : String)
deriving DecidableEq

/-- Mirror of Go `TreeItem.ToggleChildren`: a no-op unless
`CanHaveChildren`; otherwise flip `Open` and fire the matching hook
(when present).  Hook bodies are external collaborators: the events they
would receive are returned rather than interpreted. -/
def TItem.ToggleChildren (it : TItem) : TItem × List HEvent :=
  if it.CanHaveChildren then
    let it' := it.setOpen (!it.Open)
    if it'.Open then
      (it', if it.OpenFunc then [.openFired it.Name] else [])
    else
      (it', if it.CloseFunc then [.closeFired it.Name] else [])
  else (it, [])

/-- Apply `ToggleChildren` to the node at a path, rebuilding the spine. -/
def toggleAt (f : TForest) : List Nat → Option (TForest × List HEvent)
  | [] => none
  | [i] =>
    (f.get? i).map fun it =>
      let r := it.ToggleChildren
      (f.set i r.1, r.2)
  | i :: j :: p =>
    (f.get? i).bind fun it =>
      (toggleAt it.Children (j :: p)).map fun r =>
        (f.set i (it.setChildren r.1), r.2)

/-- Mirror of Go `TreeItem.Refresh`: drop all children and force closed. -/
def TItem.Refresh (it : TItem) : TItem :=
  (it.setChildren .nil).setOpen false

/-- Mirror of Go `Tree` (the aggregate root).  Presentation-only fields
(styles, key map, chevron symbol strings, mutex) are omitted; `ActiveItem`
is the access path of the active node, or `none`. -/
structure Tree where
  TopLine : Int
  Width : Int
  Height : Int
  ActiveItem : Option (List Nat)
  Items : TForest
  initialized : Bool

/-- Mirror of Go `New` + `setInitialValues`: an empty, initialized tree. -/
def Tree.New : Tree :=
  { TopLine := 0, Width := 0, Height := 0, ActiveItem := none,
    Items := .nil, initialized := true }

/-- Mirror of Go `Tree.AddChildren`: append the new items; if there was no
active item, the first element of the (resulting) top-level list becomes
active.  Parent back-references are implicit in the path representation. -/
def Tree.AddChildren (t : Tree) (l : TForest) : Tree :=
  if l.isEmpty then t
  else
    { t with
      Items := t.Items.append l,
      ActiveItem := match t.ActiveItem with
        | none => some [0]
        | some p => some p }

/-- Mirror of Go `Tree.Refresh`: clear the top-level items.  The Go code
does not touch `ActiveItem`. -/
def Tree.Refresh (t : Tree) : Tree :=
  { t with Items := .nil }

/-- Mirror of Go `Tree.SelectNext`: delegate to the active item; no-op
when there is none. -/
def Tree.SelectNext (t : Tree) : Tree :=
  match t.ActiveItem with
  | none => t
  | some p =>
    match selNext t.Items p with
    | none => t
    | some q => { t with ActiveItem := some q }

/-- Mirror of Go `Tree.SelectPrevious`; `none` is the out-of-range failure
of the descent loop. -/
def Tree.SelectPrevious (t : Tree) : Option Tree :=
  match t.ActiveItem with
  | none => some t
  | some p =>
    match selPrev t.Items p with
    | .outOfRange => none
    | .noChange => some t
    | .moveTo q => some { t with ActiveItem := some q }

/-- Mirror of Go `Tree.ToggleChild`: toggle the active item, if any. -/
def Tree.ToggleChild (t : Tree) : Tree × List HEvent :=
  match t.ActiveItem with
  | none => (t, [])
  | some p =>
    match toggleAt t.Items p with
    | none => (t, [])
    | some r => ({ t with Items := r.1 }, r.2)

/-! Rendering.  A Go render string is modelled as a list of `Row`s; the Go
empty string is the empty list. -/

/-- One display line, as composed by `ScrollView`:
* `skipped`: the `topline < 0` branch — styling is not applied, the line
  keeps only the already-built indent + chevron text;
* `rendered`: the styled line (focused when this is the active item) whose
  text is indent + chevron + icon + `" "` + name;
* `blank`: the line an empty string contributes inside `JoinVertical`. -/
inductive Row where
  | skipped (text : String)
  | rendered (focused : Bool) (text : String)
  | blank
deriving DecidableEq

/-- The icon constants of the source (material design code points). -/
def NoChevron : String := " "

def ChevronRight : String := ⟨[Char.ofNat 0xF0142]⟩

def ChevronDown : String := ⟨[Char.ofNat 0xF0140]⟩

/-- The chevron chosen for an item (`ScrollView` / `View` both use it). -/
def chevron (it : TItem) : String :=
  if it.CanHaveChildren then
    if it.Open then ChevronDown else ChevronRight
  else NoChevron

/-- Go builds the indentation with `indent` copies of two spaces. -/
def indentStr : Nat → String
  | 0 => ""
  | n + 1 => indentStr n ++ "  "

/-- Model of `lipgloss.JoinVertical`: stack blocks; an empty block is one
blank line.  Padding-to-width and ANSI decoration are presentation detail
not modelled. -/
def joinVertical (blocks : List (List Row)) : List Row :=
  (blocks.map fun b => if b.isEmpty then [Row.blank] else b).flatten

mutual

/-- Mirror of Go `TreeItem.ScrollView`.  `active` is the tree's active
path, `p` this item's path, `indent` the indent the parent stored into the
item before rendering it.  Returns the updated `topline` and the rows. -/
def TItem.ScrollView (active : Option (List Nat)) (p : List Nat)
    (indent : Nat) (topline bottomline : Int) : TItem → Int × List Row
  | .mk name icon chc op hof hcf children =>
    let it : TItem := .mk name icon chc op hof hcf children
    let pre := indentStr indent ++ chevron it
    let row : Row :=
      if topline < 0 then .skipped pre
      else .rendered (active = some p) (pre ++ icon ++ " " ++ name)
    let tl := topline + 1
    if tl > bottomline then (tl, [])
    else
      if children.isEmpty = false ∧ op = true then
        let r := TForest.scrollKids active p (indent + 1) tl bottomline 0 children
        (r.1, joinVertical ([row] :: r.2))
      else (tl, [row])

/-- The child loop of `ScrollView`: render each child (at `indent`,
already incremented by the parent), threading `topline`, and break once
`topline >= bottomline` — after appending the child that crossed it. -/
def TForest.scrollKids (active : Option (List Nat)) (p : List Nat)
    (indent : Nat) (topline bottomline : Int) (i : Nat) :
    TForest → Int × List (List Row)
  | .nil => (topline, [])
  | .cons c tl =>
    let r := TItem.ScrollView active (p ++ [i]) indent topline bottomline c
    if r.1 ≥ bottomline then (r.1, [r.2])
    else
      let rest := TForest.scrollKids active p indent r.1 bottomline (i + 1) tl
      (rest.1, r.2 :: rest.2)

end

/-- The top-level loop of Go `Tree.View`: render every top-level item at
indent 0, threading `topline`, keeping only non-empty outputs. -/
def TForest.viewAux (active : Option (List Nat)) (i : Nat)
    (topline height : Int) : TForest → Int × List (List Row)
  | .nil => (topline, [])
  | .cons c tl =>
    let r := TItem.ScrollView active [i] 0 topline height c
    let rest := TForest.viewAux active (i + 1) r.1 height tl
    (rest.1, if r.2.isEmpty then rest.2 else r.2 :: rest.2)

/-- Mirror of Go `Tree.View`: empty before initialization, else the
vertical stack of the per-item outputs. -/
def Tree.View (t : Tree) : List Row :=
  if t.initialized = false then []
  else joinVertical (t.Items.viewAux t.ActiveItem 0 t.TopLine t.Height).2

/-! Specification-side notions used to state the claims: the visible-row
order, the spec's climb and descent descriptions, and flag consistency. -/

/-- Modelled from the spec (§4.2 select-next, steps 2–4): scan the node's
sibling list for a next sibling; else climb to the parent and repeat,
without re-descending; reaching the root aggregate yields no movement.
Stated on the reversed path, innermost index first. -/
def climbNextRev (f : TForest) : List Nat → Option (List Nat)
  | [] => none
  | x :: rp =>
    match siblingsOf f ((x :: rp).reverse) with
    | none => none
    | some sibs =>
      if x + 1 < sibs.length then some (rp.reverse ++ [x + 1])
      else climbNextRev f rp

/-- The spec's "find next sibling of an ancestor" climb, from path `p`
(the node's own sibling list is scanned first). -/
def climbNext (f : TForest) (p : List Nat) : Option (List Nat) :=
  climbNextRev f p.reverse

/-- The spec's select-previous descent, as a relation: `DescChain it q`
says `q` is the relative path obtained from candidate `it` by repeatedly
taking the last child while the candidate can have children and is open,
stopping at the first candidate that is closed or cannot have children. -/
def DescChain : TItem → List Nat → Prop
  | it, [] => ¬(it.CanHaveChildren = true ∧ it.Open = true)
  | it, i :: q =>
    it.CanHaveChildren = true ∧ it.Open = true ∧ i + 1 = it.Children.length ∧
      ∃ c, it.Children.get? i = some c ∧ DescChain c q

mutual

/-- The relative path of an item's last visible row: while the item is
open (and so shows its children), go to the last child. -/
def TItem.lastVis : TItem → List Nat
  | .mk _ _ _ op _ _ children =>
    if op then TForest.lastVisOf 0 children else []

/-- Last-visible-row descent through a child list, tracking the index. -/
def TForest.lastVisOf : Nat → TForest → List Nat
  | _, .nil => []
  | i, .cons c .nil => i :: c.lastVis
  | i, .cons _ (.cons c tl) => TForest.lastVisOf (i + 1) (.cons c tl)

end

/-- The path of the last visible row of the whole tree: the last visible
descendant of the last top-level item. -/
def TForest.lastRow (f : TForest) : List Nat :=
  TForest.lastVisOf 0 f

mutual

/-- The visible rows of an item's subtree, as paths relative to the item:
its own row, then (when open) the rows of its children in order.  This is
the order `View` renders and the order navigation traverses. -/
def TItem.flat : TItem → List (List Nat)
  | .mk _ _ _ op _ _ children =>
    [] :: (if op then TForest.flatOf 0 children else [])

/-- Visible rows of a child list, starting at child index `i`. -/
def TForest.flatOf : Nat → TForest → List (List Nat)
  | _, .nil => []
  | i, .cons c tl =>
    (TItem.flat c).map (fun r => i :: r) ++ TForest.flatOf (i + 1) tl

end

/-- All visible rows of the tree, in display order. -/
def TForest.flatForest (f : TForest) : List (List Nat) :=
  TForest.flatOf 0 f

mutual

/-- Flag consistency of an item and its descendants: an open node that can
have children has at least one child (so the select-previous descent never
indexes an empty list), and an open node with children is marked as able
to have children (so the two descend conditions of the source agree). -/
def TItem.wf : TItem → Bool
  | .mk _ _ chc op _ _ children =>
    (!(op && chc) || !children.isEmpty) &&
      ((!(op && !children.isEmpty)) || chc) && children.wfAll

/-- Flag consistency of every item of a list. -/
def TForest.wfAll : TForest → Bool
  | .nil => true
  | .cons c tl => c.wf && tl.wfAll

end

/-- `NextAll f l c` : successive elements of `l` are linked by `selNext`,
and `selNext` of the last element is `c` (the continuation). -/
def NextAll (f : TForest) : List (List Nat) → Option (List Nat) → Prop
  | [], _ => True
  | [a], c => selNext f a = c
  | a :: b :: l, c => selNext f a = some b ∧ NextAll f (b :: l) c


/-! Concrete scenario states used by the boundary claims of the spec. -/

/-- A childless leaf item (empty icon), as built by `NewItem`. -/
def flatLeaf (name : String) : TItem := NewItem name "" false .nil false false

/-- Ten flat top-level nodes `N0` … `N9` with no children. -/
def tenFlat : TForest := .ofList
  [flatLeaf "N0", flatLeaf "N1", flatLeaf "N2", flatLeaf "N3", flatLeaf "N4",
   flatLeaf "N5", flatLeaf "N6", flatLeaf "N7", flatLeaf "N8", flatLeaf "N9"]

/-- An initialized tree over `tenFlat` with the given scroll offset and
viewport height (the first node active, as after `AddChildren`). -/
def scrollTree (topLine height : Int) : Tree where
  TopLine := topLine
  Width := 80
  Height := height
  ActiveItem := some [0]
  Items := tenFlat
  initialized := true

/-- Two top-level nodes added to a fresh tree: `A` can have children (none
yet, lazy-loader style, no hooks installed) and `B` is a leaf. -/
def c5Start : Tree :=
  Tree.AddChildren Tree.New
    (.cons (NewItem "A" "" true .nil false false)
      (.cons (NewItem "B" "" false .nil false false) .nil))

/-- A fresh tree after adding one leaf and calling `Tree.Refresh`. -/
def c9After : Tree :=
  Tree.Refresh (Tree.AddChildren Tree.New (.cons (flatLeaf "A") .nil))

/-- An open node with an `OpenFunc` hook whose open child has an open
child of its own (open grandchild structure for the toggle claim). -/
def c8Node : TItem :=
  .mk "A" "" true true true false
    (.cons (.mk "B" "" true true false false (.cons (flatLeaf "C") .nil)) .nil)

/-! Basic lemmas about forests and path resolution. -/

theorem TForest.get?_isSome_of_lt {i : Nat} {f : TForest} (h : i < f.length) :
    (f.get? i).isSome := by
  induction i generalizing f with
  | zero =>
    cases f with
    | nil => simp [TForest.length] at h
    | cons c tl => simp [TForest.get?]
  | succ n ih =>
    cases f with
    | nil => simp [TForest.length] at h
    | cons c tl =>
      simp only [TForest.get?]
      exact ih (by simpa [TForest.length] using h)

theorem TForest.lt_of_get?_eq_some {i : Nat} {f : TForest} {c : TItem}
    (h : f.get? i = some c) : i < f.length := by
  induction i generalizing f with
  | zero =>
    cases f with
    | nil => simp [TForest.get?] at h
    | cons d tl => simp [TForest.length]
  | succ n ih =>
    cases f with
    | nil => simp [TForest.get?] at h
    | cons d tl =>
      simp only [TForest.get?] at h
      have := ih h
      simpa [TForest.length] using Nat.succ_lt_succ this

theorem subAt_append (it : TItem) (p q : List Nat) :
    subAt it (p ++ q) = (subAt it p).bind (fun c => subAt c q) := by
  induction p generalizing it with
  | nil => simp [subAt]
  | cons i p ih =>
    simp only [List.cons_append, subAt]
    cases h : it.Children.get? i with
    | none => simp
    | some c => simpa using ih c

theorem forestAt_append {f : TForest} {p : List Nat} (q : List Nat)
    (hp : p ≠ []) :
    forestAt f (p ++ q) = (forestAt f p).bind (fun c => subAt c q) := by
  cases p with
  | nil => exact absurd rfl hp
  | cons i p =>
    simp only [List.cons_append, forestAt]
    cases h : f.get? i with
    | none => simp
    | some it => simpa using subAt_append it p q

theorem subAt_one (it : TItem) (y : Nat) :
    subAt it [y] = it.Children.get? y := by
  simp [subAt]
  cases it.Children.get? y <;> simp [subAt]

theorem forestAt_snoc {f : TForest} {p : List Nat} (y : Nat) (hp : p ≠ []) :
    forestAt f (p ++ [y]) = (forestAt f p).bind (fun c => c.Children.get? y) := by
  rw [forestAt_append [y] hp]
  cases forestAt f p with
  | none => rfl
  | some it => simp [subAt_one]

theorem forestAt_one (f : TForest) (y : Nat) : forestAt f [y] = f.get? y := by
  simp only [forestAt]
  cases f.get? y <;> simp [subAt]

theorem siblingsOf_snoc_nil (f : TForest) (y : Nat) :
    siblingsOf f ([] ++ [y]) = some f := by
  simp [siblingsOf]

theorem siblingsOf_snoc {f : TForest} {p : List Nat} (y : Nat) (hp : p ≠ []) :
    siblingsOf f (p ++ [y]) = (forestAt f p).map TItem.Children := by
  unfold siblingsOf
  rw [if_neg (by simp), List.dropLast_concat]
  cases p with
  | nil => exact absurd rfl hp
  | cons i q => rfl

theorem siblingsOf_cons_of_ne {f : TForest} {p : List Nat} {y : Nat}
    {it : TItem} (hp : p ≠ []) (h : forestAt f p = some it) :
    siblingsOf f (p ++ [y]) = some it.Children := by
  rw [siblingsOf_snoc y hp, h]; rfl

theorem forestAt_ne_nil {f : TForest} {p : List Nat} {it : TItem}
    (h : forestAt f p = some it) : p ≠ [] := by
  intro hp; subst hp; simp [forestAt] at h

theorem forestAt_parent_isSome {f : TForest} {p : List Nat} {y : Nat}
    {it : TItem} (hp : p ≠ []) (h : forestAt f (p ++ [y]) = some it) :
    ∃ par, forestAt f p = some par ∧ par.Children.get? y = some it := by
  rw [forestAt_snoc y hp] at h
  cases hpar : forestAt f p with
  | none => rw [hpar] at h; simp at h
  | some par => rw [hpar] at h; exact ⟨par, rfl, by simpa using h⟩

/-- Unfolding equation of `selectNextRev` on a non-empty reversed path. -/
theorem selectNextRev_cons (f : TForest) (descend : Bool) (x : Nat)
    (rp : List Nat) :
    selectNextRev f descend (x :: rp) =
      match forestAt f ((x :: rp).reverse) with
      | none => none
      | some it =>
        if descend ∧ it.Open = true ∧ it.Children.isEmpty = false then
          some ((x :: rp).reverse ++ [0])
        else
          match siblingsOf f ((x :: rp).reverse) with
          | none => none
          | some sibs =>
            if x + 1 < sibs.length then some (rp.reverse ++ [x + 1])
            else
              match rp with
              | [] => none
              | _ :: _ => selectNextRev f false rp := rfl

/-- Unfolding equation of `climbNextRev` on a non-empty reversed path. -/
theorem climbNextRev_cons (f : TForest) (x : Nat) (rp : List Nat) :
    climbNextRev f (x :: rp) =
      match siblingsOf f ((x :: rp).reverse) with
      | none => none
      | some sibs =>
        if x + 1 < sibs.length then some (rp.reverse ++ [x + 1])
        else climbNextRev f rp := rfl

/-- With the descent flag off, the loop of `SelectNext` is exactly the
spec's "find next sibling of an ancestor" climb. -/
theorem selectNextRev_false_eq_climb (f : TForest) :
    ∀ (rp : List Nat), (forestAt f rp.reverse).isSome →
      selectNextRev f false rp = climbNextRev f rp
  | [], _ => rfl
  | x :: rp, h => by
    obtain ⟨it, hit⟩ := Option.isSome_iff_exists.mp h
    simp only [List.reverse_cons] at hit
    rw [selectNextRev_cons, climbNextRev_cons]
    simp only [List.reverse_cons, hit]
    rw [if_neg (by simp)]
    cases hsib : siblingsOf f (rp.reverse ++ [x]) with
    | none => rfl
    | some sibs =>
      simp only
      split
      · rfl
      · cases rp with
        | nil => rfl
        | cons y rq =>
          have hrq : (y :: rq).reverse ≠ [] := by simp
          obtain ⟨par, hpar, _⟩ := forestAt_parent_isSome hrq hit
          have hpar2 : forestAt f (rq.reverse ++ [y]) = some par := by
            simpa [List.reverse_cons] using hpar
          exact selectNextRev_false_eq_climb f (y :: rq)
            (by simp [List.reverse_cons, hpar2])

/-- Characterization of `SelectNext` from a resolvable node: descend to the
first child when the node is open and has children, else run the
ancestor-next-sibling climb. -/
theorem selNext_eq {f : TForest} {p : List Nat} {it : TItem}
    (hit : forestAt f p = some it) :
    selNext f p =
      if it.Open = true ∧ it.Children.isEmpty = false then some (p ++ [0])
      else climbNext f p := by
  have hp : p ≠ [] := forestAt_ne_nil hit
  cases hrev : p.reverse with
  | nil =>
    exact absurd (by simpa using congrArg List.reverse hrev) hp
  | cons x rp =>
    have hpr : p = rp.reverse ++ [x] := by
      rw [← List.reverse_reverse p, hrev, List.reverse_cons]
    rw [selNext, climbNext, hrev, selectNextRev_cons, climbNextRev_cons]
    simp only [List.reverse_cons, ← hpr, hit]
    by_cases hcase : it.Open = true ∧ it.Children.isEmpty = false
    · rw [if_pos ⟨by trivial, hcase.1, hcase.2⟩, if_pos hcase]
    · rw [if_neg (fun hh => hcase ⟨hh.2.1, hh.2.2⟩), if_neg hcase]
      cases hsib : siblingsOf f p with
      | none => rfl
      | some sibs =>
        simp only
        split
        · rfl
        · cases rp with
          | nil => rfl
          | cons y rq =>
            have hrq : (y :: rq).reverse ≠ [] := by simp
            have hit2 : forestAt f ((y :: rq).reverse ++ [x]) = some it := by
              rw [← hit, hpr]
            obtain ⟨par, hpar, _⟩ := forestAt_parent_isSome hrq hit2
            have hpar2 : forestAt f (rq.reverse ++ [y]) = some par := by
              simpa [List.reverse_cons] using hpar
            exact selectNextRev_false_eq_climb f (y :: rq)
              (by simp [List.reverse_cons, hpar2])

theorem Tree.setActive_self {t : Tree} {p : List Nat}
    (h : t.ActiveItem = some p) : ({ t with ActiveItem := some p }) = t := by
  cases t
  simp only at h
  rw [← h]

/-- C3: from any resolvable active node, `SelectNext` activates the first
child when the node is open and non-childless; otherwise it activates the
result of the spec's climb (own next sibling first, then successive
ancestors' next siblings, never re-descending), and leaves the active item
unchanged when the climb reaches the root aggregate without a next
sibling. -/
theorem C3_selectNext_matches_spec (t : Tree) (p : List Nat) (it : TItem)
    (hact : t.ActiveItem = some p) (hit : forestAt t.Items p = some it) :
    Tree.SelectNext t =
      { t with ActiveItem := some (
          if it.Open = true ∧ it.Children.isEmpty = false then p ++ [0]
          else (climbNext t.Items p).getD p) } := by
  unfold Tree.SelectNext
  rw [hact]
  simp only
  rw [selNext_eq hit]
  by_cases hcase : it.Open = true ∧ it.Children.isEmpty = false
  · rw [if_pos hcase, if_pos hcase]
  · rw [if_neg hcase, if_neg hcase]
    cases hclimb : climbNext t.Items p with
    | none => simpa [Option.getD] using (Tree.setActive_self hact).symm
    | some q => rfl

/-- Witness for C3 on a concrete tree: an open node with children, from
which `SelectNext` descends to the first child. -/
theorem C3_selectNext_matches_spec_witness :
    Tree.SelectNext
        { TopLine := 0, Width := 0, Height := 9,
          ActiveItem := some [0],
          Items := .cons (.mk "A" "" true true false false
            (.cons (.mk "B" "" false false false false .nil) .nil)) .nil,
          initialized := true } =
      { TopLine := 0, Width := 0, Height := 9,
        ActiveItem := some [0, 0],
        Items := .cons (.mk "A" "" true true false false
          (.cons (.mk "B" "" false false false false .nil) .nil)) .nil,
        initialized := true } := by
  rw [C3_selectNext_matches_spec _ [0]
    (.mk "A" "" true true false false
      (.cons (.mk "B" "" false false false false .nil) .nil)) (by rfl) (by rfl)]
  rfl

theorem descendLastOf_of_last :
    ∀ (ch : TForest) (i j : Nat) (c : TItem) (q : List Nat),
      ch.get? i = some c → i + 1 = ch.length → c.descendLast = some q →
      TForest.descendLastOf j ch = some ((j + i) :: q)
  | .nil, i, j, c, q, hget, _, _ => by simp [TForest.get?] at hget
  | .cons c0 .nil, i, j, c, q, hget, hlen, hdesc => by
    cases i with
    | zero =>
      simp only [TForest.get?] at hget
      cases hget
      simp [TForest.descendLastOf, hdesc]
    | succ n => simp [TForest.length] at hlen
  | .cons c0 (.cons c1 tl), i, j, c, q, hget, hlen, hdesc => by
    cases i with
    | zero => simp [TForest.length] at hlen
    | succ n =>
      simp only [TForest.get?] at hget
      have hlen2 : n + 1 = (TForest.cons c1 tl).length := by
        simpa [TForest.length] using hlen
      have hrec := descendLastOf_of_last (.cons c1 tl) n (j + 1) c q
        hget hlen2 hdesc
      rw [TForest.descendLastOf, hrec]
      congr 2
      omega

/-- An instance of the spec's select-previous descent is computed by the
source's descent loop. -/
theorem descendLast_of_descChain :
    ∀ {q : List Nat} {it : TItem}, DescChain it q →
      it.descendLast = some q := by
  intro q
  induction q with
  | nil =>
    intro it h
    cases it with
    | mk n i chc op hof hcf ch =>
      rw [TItem.descendLast, if_neg]
      simpa [DescChain, TItem.CanHaveChildren, TItem.Open] using h
  | cons i q ih =>
    intro it h
    obtain ⟨hchc, hop, hlen, c, hget, hchain⟩ := h
    cases it with
    | mk nm ic chc op hof hcf ch =>
      simp only [TItem.CanHaveChildren] at hchc
      simp only [TItem.Open] at hop
      simp only [TItem.Children] at hget hlen
      rw [TItem.descendLast, if_pos ⟨hchc, hop⟩]
      simpa using descendLastOf_of_last ch i 0 c q hget hlen (ih hchain)

/-- C4 (amended): from an active node with a previous sibling,
`SelectPrevious` activates the node reached from that sibling by the
descent that repeatedly takes the last child while the candidate can have
children and is open, stopping at the first candidate that is closed or
cannot have children (`DescChain`).  (On an open can-have-children
candidate with no children the descent instead fails out of range; see the
counterexample.) -/
theorem C4_selectPrevious_descends_last_open (t : Tree) (pre : List Nat)
    (x : Nat) (q : List Nat) (sib cur : TItem)
    (hact : t.ActiveItem = some (pre ++ [x + 1]))
    (hcur : forestAt t.Items (pre ++ [x + 1]) = some cur)
    (hsib : forestAt t.Items (pre ++ [x]) = some sib)
    (hchain : DescChain sib q) :
    Tree.SelectPrevious t =
      some { t with ActiveItem := some (pre ++ [x] ++ q) } := by
  have hdesc : sib.descendLast = some q := descendLast_of_descChain hchain
  have hlast : (pre ++ [x + 1]).getLast? = some (x + 1) :=
    List.getLast?_concat _
  have hdrop : (pre ++ [x + 1]).dropLast = pre := List.dropLast_concat
  have hsibs : ∃ sibs, siblingsOf t.Items (pre ++ [x + 1]) = some sibs ∧
      sibs.get? x = some sib := by
    cases hpre : pre with
    | nil =>
      refine ⟨t.Items, siblingsOf_snoc_nil _ _, ?_⟩
      rw [hpre] at hsib
      rw [← forestAt_one]
      simpa using hsib
    | cons a l =>
      rw [hpre] at hsib
      obtain ⟨par, hpar, hget⟩ := forestAt_parent_isSome (by simp) hsib
      exact ⟨par.Children, siblingsOf_cons_of_ne (by simp) hpar, hget⟩
  obtain ⟨sibs, hsib2, hget⟩ := hsibs
  unfold Tree.SelectPrevious
  rw [hact]
  simp only [selPrev, hcur, hsib2, hlast]
  rw [if_pos (show 1 ≤ x + 1 by omega)]
  simp only [Nat.add_sub_cancel, hget, hdesc, hdrop]

/-- Witness for C4 (amended): two flat leaves; from the second,
`SelectPrevious` activates the first (an empty descent chain). -/
theorem C4_selectPrevious_descends_last_open_witness :
    Tree.SelectPrevious
        { TopLine := 0, Width := 0, Height := 9,
          ActiveItem := some [1],
          Items := .cons (.mk "A" "" false false false false .nil)
            (.cons (.mk "B" "" false false false false .nil) .nil),
          initialized := true } =
      some
        { TopLine := 0, Width := 0, Height := 9,
          ActiveItem := some [0],
          Items := .cons (.mk "A" "" false false false false .nil)
            (.cons (.mk "B" "" false false false false .nil) .nil),
          initialized := true } := by
  rw [C4_selectPrevious_descends_last_open _ [] 0 []
    (.mk "A" "" false false false false .nil)
    (.mk "B" "" false false false false .nil) (by rfl) (by rfl) (by rfl)
    (by intro h; simp [TItem.Open] at h)]
  rfl

/-- Counterexample to C4 as stated: the previous sibling can have children,
is open, and is childless.  The claim's descent would stop at it (it is
childless) and activate it; the source instead indexes `Children[-1]` and
fails, so no node is activated. -/
theorem C4_counterexample :
    Tree.SelectPrevious
        { TopLine := 0, Width := 0, Height := 9,
          ActiveItem := some [1],
          Items := .cons (.mk "A" "" true true false false .nil)
            (.cons (.mk "B" "" false false false false .nil) .nil),
          initialized := true } = none := rfl

/-- C1: over ten flat nodes with viewport height 3 and `topline = 0`, the
render pass emits exactly the three rows of nodes 0, 1, 2 (the first one
focused, being active), and the `topline` counter returned after those
three rows is 3. -/
theorem C1_scroll_clipping_boundary :
    Tree.View (scrollTree 0 3) =
      [Row.rendered true "  N0", Row.rendered false "  N1",
       Row.rendered false "  N2"] ∧
    (TForest.viewAux (some [0]) 0 0 3
        (.ofList [flatLeaf "N0", flatLeaf "N1", flatLeaf "N2"])).1 = 3 :=
  ⟨rfl, rfl⟩

/-- C2, evaluated at the failing input: with `topline = -2` and height 5,
the two rows above the window still produce a row each — the unstyled
indent-plus-chevron text `" "` — rather than no text; after them come the
full rows of `N2` … `N6`.  (`Tree.View` keeps any non-empty per-item
output, and the `topline < 0` branch of `ScrollView` returns the partially
built line, not the empty string.) -/
theorem C2_negative_topline_rows_not_empty :
    Tree.View (scrollTree (-2) 5) =
      [Row.skipped " ", Row.skipped " ",
       Row.rendered false "  N2", Row.rendered false "  N3",
       Row.rendered false "  N4", Row.rendered false "  N5",
       Row.rendered false "  N6"] ∧
    Row.skipped " " ≠ Row.rendered false "  N2" := ⟨rfl, by decide⟩

/-- C5, evaluated at the failing input: make `A` (which can have children
but has none) open via `ToggleChild`, move to `B` with `SelectNext`, then
`SelectPrevious` runs the descent on `A` and indexes `Children[-1]`:
out of range (`none`), all through public operations. -/
theorem C5_selectPrevious_out_of_range :
    c5Start.ActiveItem = some [0] ∧
    (forestAt (Tree.ToggleChild c5Start).1.Items [0]).map TItem.Open =
      some true ∧
    (Tree.SelectNext (Tree.ToggleChild c5Start).1).ActiveItem = some [1] ∧
    Tree.SelectPrevious (Tree.SelectNext (Tree.ToggleChild c5Start).1) =
      none :=
  ⟨rfl, rfl, rfl, rfl⟩

/-- C9, evaluated at the failing input: after adding one item and calling
`Tree.Refresh`, the top-level list is empty while `ActiveItem` still holds
the removed node's reference, which no longer resolves — a dangling active
item on an empty tree. -/
theorem C9_refresh_leaves_dangling_active :
    c9After.Items = .nil ∧ c9After.ActiveItem = some [0] ∧
    forestAt c9After.Items [0] = none :=
  ⟨rfl, rfl, rfl⟩

/-- C10: adding a non-empty item list always leaves an active item, and
when there was none the first element of the resulting top-level list
(path `[0]`, which resolves) becomes active. -/
theorem C10_addChildren_activates_first (t : Tree) (l : TForest)
    (hl : l.isEmpty = false) :
    (Tree.AddChildren t l).ActiveItem.isSome = true ∧
    (t.ActiveItem = none →
      (Tree.AddChildren t l).ActiveItem = some [0] ∧
      ((Tree.AddChildren t l).Items.get? 0).isSome = true) := by
  unfold Tree.AddChildren
  rw [if_neg (by simp [hl])]
  constructor
  · cases t.ActiveItem <;> simp
  · intro hnone
    rw [hnone]
    refine ⟨rfl, ?_⟩
    cases htl : t.Items with
    | nil =>
      cases l with
      | nil => simp [TForest.isEmpty] at hl
      | cons c tl => simp [htl, TForest.append, TForest.get?]
    | cons c tl => simp [htl, TForest.append, TForest.get?]

/-- Witness for C10: adding one leaf to the fresh empty tree activates
path `[0]`, which resolves. -/
theorem C10_addChildren_activates_first_witness :
    (Tree.AddChildren Tree.New (.cons (flatLeaf "A") .nil)).ActiveItem.isSome
        = true ∧
    (Tree.AddChildren Tree.New
        (.cons (flatLeaf "A") .nil)).ActiveItem = some [0] ∧
    ((Tree.AddChildren Tree.New
        (.cons (flatLeaf "A") .nil)).Items.get? 0).isSome = true := by
  have h := C10_addChildren_activates_first Tree.New
    (.cons (flatLeaf "A") .nil) (by rfl)
  exact ⟨h.1, (h.2 rfl).1, (h.2 rfl).2⟩

/-- C8 (amended): toggling a can-have-children open node closed keeps the
child subtrees (hence every descendant's `Open` flag) intact; toggling it
open again restores the exact original item — so the previously open
grandchildren are visible again — and fires only the node's own `OpenFunc`
hook (no descendant hook), which, contrary to the claim as stated, is
re-invoked on every reopen. -/
theorem C8_toggle_keeps_descendant_open_flags (it : TItem)
    (hchc : it.CanHaveChildren = true) (hop : it.Open = true) :
    (it.ToggleChildren).1.Children = it.Children ∧
    ((it.ToggleChildren).1.ToggleChildren).1 = it ∧
    ((it.ToggleChildren).1.ToggleChildren).2 =
      (if it.OpenFunc then [HEvent.openFired it.Name] else []) ∧
    TItem.flat ((it.ToggleChildren).1.ToggleChildren).1 = TItem.flat it := by
  cases it with
  | mk n i chc op hof hcf ch =>
    simp only [TItem.CanHaveChildren] at hchc
    simp only [TItem.Open] at hop
    subst hchc hop
    refine ⟨rfl, rfl, rfl, rfl⟩

/-- Witness for C8 (amended) on the concrete open-grandchild node. -/
theorem C8_toggle_keeps_descendant_open_flags_witness :
    (c8Node.ToggleChildren).1.Children = c8Node.Children ∧
    ((c8Node.ToggleChildren).1.ToggleChildren).1 = c8Node ∧
    ((c8Node.ToggleChildren).1.ToggleChildren).2 =
      (if c8Node.OpenFunc then [HEvent.openFired c8Node.Name] else []) ∧
    TItem.flat ((c8Node.ToggleChildren).1.ToggleChildren).1 =
      TItem.flat c8Node :=
  C8_toggle_keeps_descendant_open_flags c8Node rfl rfl

/-- Counterexample to C8 as stated: reopening `c8Node` does re-invoke the
node's own `OpenFunc` hook (the second toggle emits its open event). -/
theorem C8_counterexample :
    ((c8Node.ToggleChildren).1.ToggleChildren).2 = [HEvent.openFired "A"] ∧
    [HEvent.openFired "A"] ≠ ([] : List HEvent) :=
  ⟨rfl, by decide⟩

/-! The visible-row successor structure of `selNext` (`NextAll` chains). -/

theorem nextAll_singleton {f : TForest} {a : List Nat} {c : Option (List Nat)}
    (h : selNext f a = c) : NextAll f [a] c := h

theorem nextAll_tail {f : TForest} {a : List Nat} {l : List (List Nat)}
    {c : Option (List Nat)} (h : NextAll f (a :: l) c) (hl : l ≠ []) :
    NextAll f l c := by
  cases l with
  | nil => exact absurd rfl hl
  | cons b l => exact h.2

theorem nextAll_head_link {f : TForest} {a b : List Nat}
    {l : List (List Nat)} {c : Option (List Nat)} (h : NextAll f (a :: l) c)
    (hl : l.head? = some b) : selNext f a = some b := by
  cases l with
  | nil => simp at hl
  | cons b2 l =>
    cases hl
    exact h.1

theorem nextAll_append {f : TForest} {l2 : List (List Nat)} {b : List Nat}
    {c : Option (List Nat)} (hhead : l2.head? = some b)
    (h2 : NextAll f l2 c) :
    ∀ {l1 : List (List Nat)}, NextAll f l1 (some b) →
      NextAll f (l1 ++ l2) c
  | [], _ => by
    cases l2 with
    | nil => simp at hhead
    | cons x l2 => simpa using h2
  | [a], h1 => by
    cases l2 with
    | nil => simp at hhead
    | cons x l2 =>
      cases hhead
      exact ⟨h1, h2⟩
  | a :: a2 :: l1, h1 =>
    ⟨h1.1, nextAll_append hhead h2 h1.2⟩

theorem nextAll_get? {f : TForest} {c : Option (List Nat)} :
    ∀ {k : Nat} {l : List (List Nat)} {a b : List Nat}, NextAll f l c →
      l.get? k = some a → l.get? (k + 1) = some b → selNext f a = some b := by
  intro k
  induction k with
  | zero =>
    intro l a b h hga hgb
    cases l with
    | nil => simp at hga
    | cons a0 l =>
      cases l with
      | nil => simp at hgb
      | cons b0 l =>
        simp only [List.get?] at hga hgb
        cases hga; cases hgb
        exact h.1
  | succ n ih =>
    intro l a b h hga hgb
    cases l with
    | nil => simp at hga
    | cons a0 l =>
      simp only [List.get?] at hga hgb
      exact ih (nextAll_tail h (by intro hh; rw [hh] at hga; simp at hga))
        hga hgb

theorem nextAll_getLast? {f : TForest} {c : Option (List Nat)} :
    ∀ {l : List (List Nat)} {a : List Nat}, NextAll f l c →
      l.getLast? = some a → selNext f a = c
  | [], _, _, hg => by simp at hg
  | [a0], a, h, hg => by
    simp only [List.getLast?_singleton] at hg
    cases hg
    exact h
  | a0 :: a1 :: l, a, h, hg => by
    rw [List.getLast?_cons_cons] at hg
    exact nextAll_getLast? h.2 hg

theorem TItem.flat_shape (it : TItem) :
    TItem.flat it =
      [] :: (if it.Open = true then TForest.flatOf 0 it.Children else []) := by
  cases it with
  | mk n i chc op hof hcf ch =>
    rw [TItem.flat]
    simp [TItem.Open, TItem.Children]

theorem TForest.flatOf_ne_nil {cs : TForest} (h : cs.isEmpty = false)
    (i : Nat) : TForest.flatOf i cs ≠ [] := by
  cases cs with
  | nil => simp [TForest.isEmpty] at h
  | cons c tl =>
    rw [TForest.flatOf]
    have : TItem.flat c = [] :: _ := TItem.flat_shape c
    simp [this]

theorem TForest.flatOf_head {c : TItem} {tl : TForest} (i : Nat) :
    (TForest.flatOf i (.cons c tl)).head? = some [i] := by
  rw [TForest.flatOf, TItem.flat_shape c]
  simp

theorem TItem.lastVis_shape (it : TItem) :
    TItem.lastVis it =
      if it.Open = true then TForest.lastVisOf 0 it.Children else [] := by
  cases it with
  | mk n i chc op hof hcf ch =>
    rw [TItem.lastVis]
    simp [TItem.Open, TItem.Children]

/-- A continuation computation shared by the chain lemmas: the value of the
descent-off `SelectNext` loop at a child path `p ++ [j]`. -/
theorem selectNextRev_false_snoc {f : TForest} {p : List Nat} {j : Nat}
    {sibs : TForest} {c : TItem}
    (hsib : siblingsOf f (p ++ [j]) = some sibs)
    (hres : forestAt f (p ++ [j]) = some c) :
    selectNextRev f false ((p ++ [j]).reverse) =
      if j + 1 < sibs.length then some (p ++ [j + 1])
      else selectNextRev f false p.reverse := by
  have hrev : (p ++ [j]).reverse = j :: p.reverse := by simp
  rw [hrev, selectNextRev_cons]
  have hrev2 : (j :: p.reverse).reverse = p ++ [j] := by simp
  rw [hrev2]
  simp only [hres, hsib]
  rw [if_neg (show ¬(false = true ∧ c.Open = true ∧ c.Children.isEmpty = false)
    by simp)]
  by_cases hlen : j + 1 < sibs.length
  · rw [if_pos hlen, if_pos hlen, List.reverse_reverse]
  · rw [if_neg hlen, if_neg hlen]
    cases hp : p.reverse with
    | nil => rfl
    | cons y rq => rfl

/-- When the active node is not open-with-children, the initial descent
check of `SelectNext` does not fire and the call equals the descent-off
loop. -/
theorem selNext_eq_false_of_not_descend {f : TForest} {p : List Nat}
    {it : TItem} (hit : forestAt f p = some it)
    (hnd : ¬(it.Open = true ∧ it.Children.isEmpty = false)) :
    selNext f p = selectNextRev f false p.reverse := by
  have hp : p ≠ [] := forestAt_ne_nil hit
  cases hrev : p.reverse with
  | nil => exact absurd (by simpa using congrArg List.reverse hrev) hp
  | cons x rp =>
    have hpr : (x :: rp).reverse = p := by
      rw [← hrev, List.reverse_reverse]
    rw [selNext, hrev, selectNextRev_cons, selectNextRev_cons, hpr]
    simp only [hit]
    rw [if_neg (show ¬(True ∧ it.Open = true ∧ it.Children.isEmpty = false)
      from fun hh => hnd ⟨hh.2.1, hh.2.2⟩)]
    rw [if_neg (show ¬(false = true ∧ it.Open = true ∧ it.Children.isEmpty = false)
      by simp)]

theorem nextAll_cons_of_head {f : TForest} {a b : List Nat}
    {l : List (List Nat)} {c : Option (List Nat)} (hl : l.head? = some b)
    (ha : selNext f a = some b) (h : NextAll f l c) :
    NextAll f (a :: l) c := by
  cases l with
  | nil => simp at hl
  | cons b0 l =>
    cases hl
    exact ⟨ha, h⟩

theorem TItem.sizeOf_children_lt (it : TItem) : sizeOf it.Children < sizeOf it := by
  cases it with
  | mk n i a b c d ch =>
    simp [TItem.Children]
    try omega

/-- Chain lemma: over the child list `cs` of the node at `p` (or the
top-level list when `p = []`), sitting at indices `j, j+1, …` of the full
sibling list `sibs`, the visible rows are `selNext`-chained, with the
descent-off loop at `p` as the continuation after the last row. -/
theorem nextAll_flatOf (f : TForest) :
    (cs : TForest) → (j : Nat) → (p : List Nat) → (sibs : TForest) →
    (∀ y, siblingsOf f (p ++ [y]) = some sibs) →
    (∀ y, forestAt f (p ++ [y]) = sibs.get? y) →
    sibs.length = j + cs.length →
    (∀ i, sibs.get? (j + i) = cs.get? i) →
    NextAll f ((TForest.flatOf j cs).map (fun r => p ++ r))
      (selectNextRev f false p.reverse)
  | .nil, j, p, sibs, _, _, _, _ => by
    rw [TForest.flatOf]
    exact trivial
  | .cons c cs', j, p, sibs, hsib, hres, hlen, hget => by
    have hresj : forestAt f (p ++ [j]) = some c := by
      have hh := hget 0
      rw [Nat.add_zero] at hh
      simp only [TForest.get?] at hh
      rw [hres j, hh]
    have hpj : p ++ [j] ≠ [] := by simp
    have hcontc := selectNextRev_false_snoc (hsib j) hresj
    have hblock : NextAll f ((TItem.flat c).map (fun r => (p ++ [j]) ++ r))
        (selectNextRev f false ((p ++ [j]).reverse)) := by
      rw [TItem.flat_shape c]
      by_cases hoc : c.Open = true ∧ c.Children.isEmpty = false
      · rw [if_pos hoc.1]
        have hsib2 : ∀ y, siblingsOf f ((p ++ [j]) ++ [y]) = some c.Children :=
          fun y => siblingsOf_cons_of_ne hpj hresj
        have hres2 : ∀ y, forestAt f ((p ++ [j]) ++ [y]) = c.Children.get? y := by
          intro y
          rw [forestAt_snoc y hpj, hresj]
          rfl
        have hinner := nextAll_flatOf f c.Children 0 (p ++ [j]) c.Children
          hsib2 hres2 (by omega) (fun i => by rw [Nat.zero_add])
        cases hch : c.Children with
        | nil => rw [hch] at hoc; simp [TForest.isEmpty] at hoc
        | cons d tl =>
          rw [hch] at hinner
          simp only [List.map_cons, List.append_nil]
          refine nextAll_cons_of_head (b := (p ++ [j]) ++ [0]) ?_ ?_ hinner
          · rw [List.head?_map, TForest.flatOf_head]
            rfl
          · rw [selNext_eq hresj, if_pos hoc]
      · have hnil : (if c.Open = true then TForest.flatOf 0 c.Children else [])
            = ([] : List (List Nat)) := by
          by_cases ho : c.Open = true
          · rw [if_pos ho]
            have hemp : c.Children.isEmpty = true := by
              by_contra hh
              exact hoc ⟨ho, by simpa using hh⟩
            cases hch : c.Children with
            | nil => rfl
            | cons d tl => rw [hch] at hemp; simp [TForest.isEmpty] at hemp
          · rw [if_neg ho]
        rw [hnil]
        simp only [List.map_cons, List.map_nil, List.append_nil]
        exact nextAll_singleton (selNext_eq_false_of_not_descend hresj hoc)
    have hlen2 : sibs.length = (j + 1) + cs'.length := by
      rw [hlen]
      simp only [TForest.length]
      omega
    have hget2 : ∀ i, sibs.get? (j + 1 + i) = cs'.get? i := by
      intro i
      have hh := hget (1 + i)
      rw [show j + (1 + i) = j + 1 + i by omega] at hh
      rw [hh, show 1 + i = i + 1 by omega]
      simp only [TForest.get?]
    have hrest := nextAll_flatOf f cs' (j + 1) p sibs hsib hres hlen2 hget2
    rw [TForest.flatOf, List.map_append, List.map_map]
    have hcomp : ((fun r => p ++ r) ∘ fun r => j :: r)
        = fun r => (p ++ [j]) ++ r := by
      funext r
      simp
    rw [hcomp]
    cases cs' with
    | nil =>
      have hlt : ¬(j + 1 < sibs.length) := by
        rw [hlen]
        simp only [TForest.length]
        omega
      rw [hcontc, if_neg hlt] at hblock
      rw [TForest.flatOf, List.map_nil, List.append_nil]
      exact hblock
    | cons d tl' =>
      have hlt : j + 1 < sibs.length := by
        rw [hlen]
        simp only [TForest.length]
        omega
      rw [hcontc, if_pos hlt] at hblock
      have hresthead :
          ((TForest.flatOf (j + 1) (.cons d tl')).map (fun r => p ++ r)).head?
            = some (p ++ [j + 1]) := by
        rw [List.head?_map, TForest.flatOf_head]
        rfl
      exact nextAll_append hresthead hrest hblock
termination_by cs => sizeOf cs
decreasing_by
  · calc sizeOf c.Children < sizeOf c := TItem.sizeOf_children_lt c
      _ < sizeOf (TForest.cons c cs') := by simp_arith
  · simp_arith

/-- The visible rows of the whole tree are `selNext`-chained, and
`selNext` of the last visible row is `none` (no movement). -/
theorem nextAll_flatForest (f : TForest) :
    NextAll f (TForest.flatForest f) none := by
  have h := nextAll_flatOf f f 0 [] f
    (fun y => siblingsOf_snoc_nil f y)
    (fun y => by rw [List.nil_append, forestAt_one])
    (by omega)
    (fun i => by rw [Nat.zero_add])
  rw [TForest.flatForest]
  have hmap : (TForest.flatOf 0 f).map (fun r => [] ++ r)
      = TForest.flatOf 0 f := by
    simp
  rw [hmap] at h
  exact h

theorem getLast?_cons_of_ne {a : List Nat} {l : List (List Nat)}
    (h : l ≠ []) : (a :: l).getLast? = l.getLast? := by
  cases l with
  | nil => exact absurd rfl h
  | cons b l => rw [List.getLast?_cons_cons]

/-- The last visible row of a non-empty child list is its `lastVisOf`
path. -/
theorem TForest.flatOf_getLast :
    (cs : TForest) → (i : Nat) → cs.isEmpty = false →
      (TForest.flatOf i cs).getLast? = some (TForest.lastVisOf i cs)
  | .cons c .nil, i, _ => by
    rw [TForest.flatOf, TForest.flatOf, List.append_nil, TForest.lastVisOf]
    rw [TItem.flat_shape c, TItem.lastVis_shape c]
    by_cases ho : c.Open = true
    · rw [if_pos ho, if_pos ho]
      cases hch : c.Children with
      | nil => rw [TForest.flatOf, TForest.lastVisOf]; rfl
      | cons d tl =>
        have hne : TForest.flatOf 0 (TForest.cons d tl) ≠ [] :=
          @TForest.flatOf_ne_nil (.cons d tl) (by rfl) 0
        rw [List.map_cons, getLast?_cons_of_ne (by simpa using hne)]
        rw [List.getLast?_map, TForest.flatOf_getLast (.cons d tl) 0 rfl]
        rfl
    · rw [if_neg ho, if_neg ho]
      rfl
  | .cons c (.cons d tl), i, _ => by
    rw [TForest.flatOf, TForest.lastVisOf]
    have hne : TForest.flatOf (i + 1) (TForest.cons d tl) ≠ [] :=
      @TForest.flatOf_ne_nil (.cons d tl) (by rfl) (i + 1)
    rw [List.getLast?_append_of_ne_nil _ (by simpa using hne)]
    exact TForest.flatOf_getLast (.cons d tl) (i + 1) rfl
termination_by cs => sizeOf cs
decreasing_by
  · rw [← hch]
    calc sizeOf c.Children < sizeOf c := TItem.sizeOf_children_lt c
      _ < sizeOf (TForest.cons c TForest.nil) := by simp_arith
  · simp_arith

/-- C7: no wraparound — `SelectPrevious` at the first top-level node and
`SelectNext` at the tree's last visible row both leave the tree (and in
particular its active item) unchanged. -/
theorem C7_no_wraparound (t : Tree) (hne : t.Items.isEmpty = false) :
    (t.ActiveItem = some [0] → Tree.SelectPrevious t = some t) ∧
    (t.ActiveItem = some (TForest.lastRow t.Items) → Tree.SelectNext t = t) := by
  constructor
  · intro hact
    have hsome : ∃ c, forestAt t.Items [0] = some c := by
      cases hf : t.Items with
      | nil => rw [hf] at hne; simp [TForest.isEmpty] at hne
      | cons c tl =>
        refine ⟨c, ?_⟩
        rw [forestAt_one]
        try rw [hf]
        rfl
    obtain ⟨c, hc⟩ := hsome
    have hsib0 : siblingsOf t.Items [0] = some t.Items := rfl
    unfold Tree.SelectPrevious
    rw [hact]
    simp only [selPrev, hc, hsib0, List.getLast?_singleton]
    rw [if_neg (by omega)]
    simp
  · intro hact
    unfold Tree.SelectNext
    rw [hact]
    have hlast : (TForest.flatForest t.Items).getLast?
        = some (TForest.lastRow t.Items) := by
      rw [TForest.flatForest, TForest.lastRow]
      exact TForest.flatOf_getLast t.Items 0 hne
    have hnone : selNext t.Items (TForest.lastRow t.Items) = none :=
      nextAll_getLast? (nextAll_flatForest t.Items) hlast
    simp only [hnone]

/-- Witness for C7 on a concrete two-node tree with an open subtree: the
last visible row is the open node's grandchild-free last child. -/
theorem C7_no_wraparound_witness :
    (Tree.SelectPrevious
        { TopLine := 0, Width := 0, Height := 9,
          ActiveItem := some [0],
          Items := .cons (flatLeaf "A")
            (.cons (.mk "B" "" true true false false
              (.cons (flatLeaf "C") .nil)) .nil),
          initialized := true } =
      some
        { TopLine := 0, Width := 0, Height := 9,
          ActiveItem := some [0],
          Items := .cons (flatLeaf "A")
            (.cons (.mk "B" "" true true false false
              (.cons (flatLeaf "C") .nil)) .nil),
          initialized := true }) ∧
    (Tree.SelectNext
        { TopLine := 0, Width := 0, Height := 9,
          ActiveItem := some [1, 0],
          Items := .cons (flatLeaf "A")
            (.cons (.mk "B" "" true true false false
              (.cons (flatLeaf "C") .nil)) .nil),
          initialized := true } =
      { TopLine := 0, Width := 0, Height := 9,
        ActiveItem := some [1, 0],
        Items := .cons (flatLeaf "A")
          (.cons (.mk "B" "" true true false false
            (.cons (flatLeaf "C") .nil)) .nil),
        initialized := true }) := by
  constructor
  · exact (C7_no_wraparound _ (by rfl)).1 rfl
  · exact (C7_no_wraparound _ (by rfl)).2 (by rfl)

theorem TItem.wf_parts {n i : String} {chc op hof hcf : Bool} {ch : TForest}
    (h : TItem.wf (.mk n i chc op hof hcf ch) = true) :
    ((op && chc) = true → ch.isEmpty = false) ∧
    ((op && !ch.isEmpty) = true → chc = true) ∧ ch.wfAll = true := by
  rw [TItem.wf] at h
  simp only [Bool.and_eq_true, Bool.or_eq_true, Bool.not_eq_true] at h ⊢
  obtain ⟨⟨h1, h2⟩, h3⟩ := h
  refine ⟨?_, ?_, h3⟩
  · intro hoc
    cases h1 with
    | inl hh => rw [hoc.1, hoc.2] at hh; simp at hh
    | inr hh => simpa using hh
  · intro hoc
    cases h2 with
    | inl hh => rw [hoc.1, hoc.2] at hh; simp at hh
    | inr hh => exact hh

theorem TForest.wfAll_parts {c : TItem} {tl : TForest}
    (h : TForest.wfAll (.cons c tl) = true) :
    c.wf = true ∧ tl.wfAll = true := by
  rw [TForest.wfAll] at h
  simpa [Bool.and_eq_true] using h

theorem TForest.wfAll_get : (cs : TForest) → (i : Nat) → cs.wfAll = true →
    ∀ {c : TItem}, cs.get? i = some c → c.wf = true
  | .nil, i => by
    intro _ c hget
    simp [TForest.get?] at hget
  | .cons c0 tl, 0 => by
    intro h c hget
    simp only [TForest.get?] at hget
    cases hget
    exact (TForest.wfAll_parts h).1
  | .cons c0 tl, i + 1 => by
    intro h c hget
    simp only [TForest.get?] at hget
    exact TForest.wfAll_get tl i (TForest.wfAll_parts h).2 hget

/-- On flag-consistent items, the select-previous descent loop computes
exactly the last-visible-row path and in particular never goes out of
range. -/
theorem TForest.descendLastOf_eq_lastVisOf :
    (ch : TForest) → (i : Nat) → ch.isEmpty = false → ch.wfAll = true →
      TForest.descendLastOf i ch = some (TForest.lastVisOf i ch)
  | .cons c0 .nil, i, _, hwf => by
    rw [TForest.descendLastOf, TForest.lastVisOf]
    have hwf0 : c0.wf = true := (TForest.wfAll_parts hwf).1
    suffices h : TItem.descendLast c0 = some (TItem.lastVis c0) by
      rw [h]
      rfl
    cases hc0 : c0 with
    | mk n ic chc op hof hcf ch0 =>
      rw [hc0] at hwf0
      obtain ⟨hw1, hw2, hw3⟩ := TItem.wf_parts hwf0
      rw [TItem.descendLast, TItem.lastVis]
      cases op with
      | false =>
        rw [if_neg (by simp), if_neg (by simp)]
      | true =>
        rw [if_pos rfl]
        cases chc with
        | false =>
          rw [if_neg (by simp)]
          have hemp : ch0.isEmpty = true := by
            by_contra hh
            have := hw2 (by simp [Bool.not_eq_true'] at hh ⊢; exact hh)
            simp at this
          cases ch0 with
          | nil => rfl
          | cons d tl => simp [TForest.isEmpty] at hemp
        | true =>
          rw [if_pos ⟨rfl, rfl⟩]
          have hne : ch0.isEmpty = false := hw1 (by simp)
          exact TForest.descendLastOf_eq_lastVisOf ch0 0 hne hw3
  | .cons c0 (.cons c1 tl), i, _, hwf => by
    rw [TForest.descendLastOf, TForest.lastVisOf]
    exact TForest.descendLastOf_eq_lastVisOf (.cons c1 tl) (i + 1) rfl
      (TForest.wfAll_parts hwf).2
termination_by ch => sizeOf ch
decreasing_by
  · rw [hc0]
    simp_arith
  · simp_arith

/-- Item-level form of the descent/last-visible-row agreement. -/
theorem TItem.descendLast_eq_lastVis (c : TItem) (hwf : c.wf = true) :
    TItem.descendLast c = some (TItem.lastVis c) := by
  cases c with
  | mk n ic chc op hof hcf ch0 =>
    obtain ⟨hw1, hw2, hw3⟩ := TItem.wf_parts hwf
    rw [TItem.descendLast, TItem.lastVis]
    cases op with
    | false => rw [if_neg (by simp), if_neg (by simp)]
    | true =>
      rw [if_pos rfl]
      cases chc with
      | false =>
        rw [if_neg (by simp)]
        have hemp : ch0.isEmpty = true := by
          by_contra hh
          have := hw2 (by simp [Bool.not_eq_true'] at hh ⊢; exact hh)
          simp at this
        cases ch0 with
        | nil => rfl
        | cons d tl => simp [TForest.isEmpty] at hemp
      | true =>
        rw [if_pos ⟨rfl, rfl⟩]
        have hne : ch0.isEmpty = false := hw1 (by simp)
        exact TForest.descendLastOf_eq_lastVisOf ch0 0 hne hw3

/-- `SelectPrevious` at the first top-level node is a no-op. -/
theorem selPrev_zero {f : TForest} {c : TItem} (hc : f.get? 0 = some c) :
    selPrev f [0] = NavResult.noChange := by
  have hres : forestAt f [0] = some c := by rw [forestAt_one]; exact hc
  have hsib : siblingsOf f [0] = some f := rfl
  simp only [selPrev, hres, hsib, List.getLast?_singleton]
  rw [if_neg (by omega)]
  rfl

/-- `SelectPrevious` from a first child activates the parent. -/
theorem selPrev_first_child {f : TForest} {q : List Nat} {it par : TItem}
    (hq : q ≠ []) (hpar : forestAt f q = some par)
    (hit : forestAt f (q ++ [0]) = some it) :
    selPrev f (q ++ [0]) = NavResult.moveTo q := by
  have hsib : siblingsOf f (q ++ [0]) = some par.Children :=
    siblingsOf_cons_of_ne hq hpar
  have hlast : (q ++ [0]).getLast? = some 0 := List.getLast?_concat _
  simp only [selPrev, hit, hsib, hlast]
  rw [if_neg (by omega), List.dropLast_concat]
  cases q with
  | nil => exact absurd rfl hq
  | cons a q2 => rfl

/-- `SelectPrevious` with a previous sibling runs the last-child descent
from that sibling. -/
theorem selPrev_prev_sibling {f : TForest} {p : List Nat} {j : Nat}
    {sibs : TForest} {c d : TItem} {q : List Nat}
    (hsibs : siblingsOf f (p ++ [j + 1]) = some sibs)
    (hres : forestAt f (p ++ [j + 1]) = some d)
    (hgetj : sibs.get? j = some c)
    (hdesc : TItem.descendLast c = some q) :
    selPrev f (p ++ [j + 1]) = NavResult.moveTo (p ++ [j] ++ q) := by
  have hlast : (p ++ [j + 1]).getLast? = some (j + 1) :=
    List.getLast?_concat _
  simp only [selPrev, hres, hsibs, hlast]
  rw [if_pos (by omega)]
  simp only [Nat.add_sub_cancel, hgetj, hdesc, List.dropLast_concat]

/-- The last visible row of an item's subtree. -/
theorem TItem.flat_getLast (c : TItem) :
    (TItem.flat c).getLast? = some (TItem.lastVis c) := by
  rw [TItem.flat_shape, TItem.lastVis_shape]
  by_cases ho : c.Open = true
  · rw [if_pos ho, if_pos ho]
    cases hch : c.Children with
    | nil => rfl
    | cons d tl =>
      have hne : TForest.flatOf 0 (TForest.cons d tl) ≠ [] :=
        @TForest.flatOf_ne_nil (.cons d tl) (by rfl) 0
      rw [getLast?_cons_of_ne hne,
        TForest.flatOf_getLast (.cons d tl) 0 (by rfl)]
  · rw [if_neg ho, if_neg ho]
    rfl

theorem TItem.wf_children {c : TItem} (h : c.wf = true) :
    c.Children.wfAll = true := by
  cases c with
  | mk n i chc op hof hcf ch => exact (TItem.wf_parts h).2.2

/-- Chain lemma for `SelectPrevious`: on flag-consistent trees, each
visible row maps back to its predecessor in display order. -/
theorem prevChain_flatOf (f : TForest) :
    (cs : TForest) → (j : Nat) → (p : List Nat) → (sibs : TForest) →
    (∀ y, siblingsOf f (p ++ [y]) = some sibs) →
    (∀ y, forestAt f (p ++ [y]) = sibs.get? y) →
    (∀ i, sibs.get? (j + i) = cs.get? i) →
    cs.wfAll = true →
    List.Chain' (fun a b => selPrev f b = NavResult.moveTo a)
      ((TForest.flatOf j cs).map (fun r => p ++ r))
  | .nil, j, p, sibs, _, _, _, _ => by
    rw [TForest.flatOf]
    simp
  | .cons c cs', j, p, sibs, hsib, hres, hget, hwf => by
    obtain ⟨hwfc, hwf2⟩ := TForest.wfAll_parts hwf
    have hresj : forestAt f (p ++ [j]) = some c := by
      have hh := hget 0
      rw [Nat.add_zero] at hh
      simp only [TForest.get?] at hh
      rw [hres j, hh]
    have hpj : p ++ [j] ≠ [] := by simp
    have hblock : List.Chain' (fun a b => selPrev f b = NavResult.moveTo a)
        ((TItem.flat c).map (fun r => (p ++ [j]) ++ r)) := by
      rw [TItem.flat_shape c]
      by_cases hoc : c.Open = true ∧ c.Children.isEmpty = false
      · rw [if_pos hoc.1]
        simp only [List.map_cons, List.append_nil]
        rw [List.chain'_cons']
        constructor
        · intro y hy
          cases hch : c.Children with
          | nil => rw [hch] at hoc; simp [TForest.isEmpty] at hoc
          | cons d tl =>
            rw [hch, List.head?_map, TForest.flatOf_head, Option.map_some',
              Option.mem_def, Option.some.injEq] at hy
            subst hy
            have hit : forestAt f ((p ++ [j]) ++ [0]) = some d := by
              rw [forestAt_snoc 0 hpj, hresj]
              show c.Children.get? 0 = some d
              rw [hch]
              rfl
            exact selPrev_first_child hpj hresj hit
        · have hsib2 : ∀ y, siblingsOf f ((p ++ [j]) ++ [y]) = some c.Children :=
            fun y => siblingsOf_cons_of_ne hpj hresj
          have hres2 : ∀ y, forestAt f ((p ++ [j]) ++ [y]) = c.Children.get? y := by
            intro y
            rw [forestAt_snoc y hpj, hresj]
            rfl
          exact prevChain_flatOf f c.Children 0 (p ++ [j]) c.Children
            hsib2 hres2 (fun i => by rw [Nat.zero_add])
            (TItem.wf_children hwfc)
      · have hnil : (if c.Open = true then TForest.flatOf 0 c.Children else [])
            = ([] : List (List Nat)) := by
          by_cases ho : c.Open = true
          · rw [if_pos ho]
            have hemp : c.Children.isEmpty = true := by
              by_contra hh
              exact hoc ⟨ho, by simpa using hh⟩
            cases hch : c.Children with
            | nil => rfl
            | cons d tl => rw [hch] at hemp; simp [TForest.isEmpty] at hemp
          · rw [if_neg ho]
        rw [hnil]
        simp only [List.map_cons, List.map_nil]
        exact List.chain'_singleton _
    have hrest := prevChain_flatOf f cs' (j + 1) p sibs hsib hres
      (fun i => by
        have hh := hget (1 + i)
        rw [show j + (1 + i) = j + 1 + i by omega] at hh
        rw [hh, show 1 + i = i + 1 by omega]
        simp only [TForest.get?]) hwf2
    rw [TForest.flatOf, List.map_append, List.map_map]
    have hcomp : ((fun r => p ++ r) ∘ fun r => j :: r)
        = fun r => (p ++ [j]) ++ r := by
      funext r
      simp
    rw [hcomp, List.chain'_append]
    refine ⟨hblock, hrest, ?_⟩
    intro x hx y hy
    rw [List.getLast?_map, TItem.flat_getLast, Option.map_some',
      Option.mem_def, Option.some.injEq] at hx
    subst hx
    cases hcs : cs' with
    | nil =>
      rw [hcs, TForest.flatOf, List.map_nil] at hy
      simp at hy
    | cons d tl =>
      rw [hcs, List.head?_map, TForest.flatOf_head, Option.map_some',
        Option.mem_def, Option.some.injEq] at hy
      subst hy
      have hresj1 : forestAt f (p ++ [j + 1]) = some d := by
        have hh := hget 1
        rw [hres (j + 1), hh, hcs]
        rfl
      have hgetj : sibs.get? j = some c := by
        have hh := hget 0
        rw [Nat.add_zero] at hh
        rw [hh]
        rfl
      exact selPrev_prev_sibling (hsib (j + 1)) hresj1 hgetj
        (TItem.descendLast_eq_lastVis c hwfc)
termination_by cs => sizeOf cs
decreasing_by
  · calc sizeOf c.Children < sizeOf c := TItem.sizeOf_children_lt c
      _ < sizeOf (TForest.cons c cs') := by simp_arith
  · simp_arith

theorem TForest.flatOf_mem_shape :
    (cs : TForest) → ∀ {j : Nat} {r : List Nat}, r ∈ TForest.flatOf j cs →
      ∃ x r2, r = x :: r2 ∧ j ≤ x
  | .nil => by
    intro h
    rw [TForest.flatOf] at h
    simp at h
  | .cons c cs' => by
    intro h
    rw [TForest.flatOf, List.mem_append] at h
    cases h with
    | inl h =>
      obtain ⟨r0, _, hr⟩ := List.mem_map.mp h
      exact ⟨_, r0, hr.symm, Nat.le_refl _⟩
    | inr h =>
      obtain ⟨x, r2, hr, hx⟩ := TForest.flatOf_mem_shape cs' h
      exact ⟨x, r2, hr, by omega⟩

/-- No path occurs twice among the visible rows. -/
theorem TForest.flatOf_nodup : (cs : TForest) → (j : Nat) →
    (TForest.flatOf j cs).Nodup
  | .nil, j => by
    rw [TForest.flatOf]
    simp
  | .cons c cs', j => by
    rw [TForest.flatOf]
    apply List.Nodup.append
    · apply List.Nodup.map
      · intro a b hab
        simpa using hab
      · rw [TItem.flat_shape]
        by_cases ho : c.Open = true
        · rw [if_pos ho, List.nodup_cons]
          constructor
          · intro hmem
            obtain ⟨x, r2, hr, _⟩ := TForest.flatOf_mem_shape c.Children hmem
            simp at hr
          · exact TForest.flatOf_nodup c.Children 0
        · rw [if_neg ho]
          simp
    · exact TForest.flatOf_nodup cs' (j + 1)
    · intro r hr1 hr2
      obtain ⟨r0, _, hr⟩ := List.mem_map.mp hr1
      obtain ⟨x, r2, hrx, hx⟩ := TForest.flatOf_mem_shape cs' hr2
      rw [← hr] at hrx
      injection hrx with h1 _
      omega
termination_by cs => sizeOf cs
decreasing_by
  · calc sizeOf c.Children < sizeOf c := TItem.sizeOf_children_lt c
      _ < sizeOf (TForest.cons c cs') := by simp_arith
  · simp_arith

/-- Root form of the `SelectPrevious` chain. -/
theorem prevChain_flatForest (f : TForest) (hwf : f.wfAll = true) :
    List.Chain' (fun a b => selPrev f b = NavResult.moveTo a)
      (TForest.flatForest f) := by
  have h := prevChain_flatOf f f 0 [] f
    (fun y => siblingsOf_snoc_nil f y)
    (fun y => by rw [List.nil_append, forestAt_one])
    (fun i => by rw [Nat.zero_add])
    hwf
  rw [TForest.flatForest]
  have hmap : (TForest.flatOf 0 f).map (fun r => [] ++ r)
      = TForest.flatOf 0 f := by
    simp
  rw [hmap] at h
  exact h

theorem Tree.selectNext_of {t : Tree} {p q : List Nat}
    (hact : t.ActiveItem = some p) (h : selNext t.Items p = some q) :
    Tree.SelectNext t = { t with ActiveItem := some q } := by
  unfold Tree.SelectNext
  rw [hact]
  simp only [h]

theorem Tree.selectNext_none {t : Tree} {p : List Nat}
    (hact : t.ActiveItem = some p) (h : selNext t.Items p = none) :
    Tree.SelectNext t = t := by
  unfold Tree.SelectNext
  rw [hact]
  simp only [h]

theorem Tree.selectPrev_move {t : Tree} {p q : List Nat}
    (hact : t.ActiveItem = some p)
    (h : selPrev t.Items p = NavResult.moveTo q) :
    Tree.SelectPrevious t = some { t with ActiveItem := some q } := by
  unfold Tree.SelectPrevious
  rw [hact]
  simp only [h]

theorem Tree.selectPrev_noChange {t : Tree} {p : List Nat}
    (hact : t.ActiveItem = some p)
    (h : selPrev t.Items p = NavResult.noChange) :
    Tree.SelectPrevious t = some t := by
  unfold Tree.SelectPrevious
  rw [hact]
  simp only [h]

theorem Tree.setActive_twice (t : Tree) (a b : Option (List Nat)) :
    ({ { t with ActiveItem := a } with ActiveItem := b })
      = { t with ActiveItem := b } := by
  cases t
  rfl

theorem head?_eq_get?_zero (l : List (List Nat)) : l.head? = l.get? 0 := by
  cases l <;> rfl

/-- C6 (amended): on a static flag-consistent tree (every open node can
have children and has at least one child, and every open node with
children is marked as able to have children), for every visible row `p`,
`SelectNext` then `SelectPrevious` returns the active item to `p` when `p`
is not the last visible row; `SelectPrevious` then `SelectNext` returns it
to `p` when `p` is not the first visible row; and at the two boundaries
the respective movement is a no-op. -/
theorem C6_next_prev_inverses (t : Tree) (p : List Nat)
    (hwf : t.Items.wfAll = true)
    (hmem : p ∈ TForest.flatForest t.Items)
    (hact : t.ActiveItem = some p) :
    ((TForest.flatForest t.Items).getLast? ≠ some p →
        Tree.SelectPrevious (Tree.SelectNext t) = some t) ∧
    ((TForest.flatForest t.Items).head? ≠ some p →
        (Tree.SelectPrevious t).map Tree.SelectNext = some t) ∧
    ((TForest.flatForest t.Items).getLast? = some p →
        Tree.SelectNext t = t) ∧
    ((TForest.flatForest t.Items).head? = some p →
        Tree.SelectPrevious t = some t) := by
  obtain ⟨⟨k, hk⟩, hgetk⟩ := List.mem_iff_get.mp hmem
  have hchainP := prevChain_flatForest t.Items hwf
  have hchainN := nextAll_flatForest t.Items
  refine ⟨?_, ?_, ?_, ?_⟩
  · intro hlast
    have hk1 : k + 1 < (TForest.flatForest t.Items).length := by
      by_contra hh
      have hkk : k = (TForest.flatForest t.Items).length - 1 := by omega
      apply hlast
      rw [List.getLast?_eq_get?, ← hkk, List.get?_eq_get hk, hgetk]
    have hnext : selNext t.Items p
        = some ((TForest.flatForest t.Items).get ⟨k + 1, hk1⟩) := by
      refine nextAll_get? hchainN ?_ (List.get?_eq_get hk1)
      rw [List.get?_eq_get hk, hgetk]
    have hprevStep : selPrev t.Items
        ((TForest.flatForest t.Items).get ⟨k + 1, hk1⟩)
        = NavResult.moveTo p := by
      have hstep := (List.chain'_iff_get.mp hchainP) k (by omega)
      rw [hgetk] at hstep
      exact hstep
    have h1 := Tree.selectNext_of hact hnext
    have h2 : Tree.SelectPrevious { t with ActiveItem := some ((TForest.flatForest t.Items).get ⟨k + 1, hk1⟩) } = some { { t with ActiveItem := some ((TForest.flatForest t.Items).get ⟨k + 1, hk1⟩) } with ActiveItem := some p } :=
      Tree.selectPrev_move rfl hprevStep
    rw [h1, h2, Tree.setActive_twice, Tree.setActive_self hact]
  · intro hhead
    have hk0 : 0 < k := by
      by_contra hh
      have hkk : k = 0 := by omega
      apply hhead
      rw [head?_eq_get?_zero, ← hkk, List.get?_eq_get hk, hgetk]
    have hkm : k - 1 + 1 = k := by omega
    have hkm1 : k - 1 < (TForest.flatForest t.Items).length := by omega
    have hprev : selPrev t.Items p
        = NavResult.moveTo ((TForest.flatForest t.Items).get ⟨k - 1, hkm1⟩) := by
      have hstep := (List.chain'_iff_get.mp hchainP) (k - 1) (by omega)
      simp only [hkm] at hstep
      rw [hgetk] at hstep
      exact hstep
    have hnext : selNext t.Items
        ((TForest.flatForest t.Items).get ⟨k - 1, hkm1⟩) = some p := by
      refine nextAll_get? hchainN (List.get?_eq_get hkm1) ?_
      rw [hkm, List.get?_eq_get hk, hgetk]
    rw [Tree.selectPrev_move hact hprev]
    rw [Option.map_some']
    have h3 : Tree.SelectNext { t with ActiveItem := some ((TForest.flatForest t.Items).get ⟨k - 1, hkm1⟩) } = { { t with ActiveItem := some ((TForest.flatForest t.Items).get ⟨k - 1, hkm1⟩) } with ActiveItem := some p } :=
      Tree.selectNext_of rfl hnext
    rw [h3, Tree.setActive_twice, Tree.setActive_self hact]
  · intro hlast
    exact Tree.selectNext_none hact
      (nextAll_getLast? hchainN hlast)
  · intro hhead
    cases hf : t.Items with
    | nil =>
      rw [hf, TForest.flatForest, TForest.flatOf] at hmem
      simp at hmem
    | cons c tl =>
      have hp0 : p = [0] := by
        rw [hf, TForest.flatForest] at hhead
        rw [TForest.flatOf_head 0] at hhead
        injection hhead with hh
        exact hh.symm
      have hz : selPrev t.Items [0] = NavResult.noChange := by
        apply selPrev_zero (c := c)
        rw [hf]
        rfl
      exact Tree.selectPrev_noChange hact (by rw [← hp0] at hz; exact hz)

/-- Witness for C6 (amended) on a flag-consistent tree `[A > [B], C]` with
the middle visible row `[0, 0]` active: both round trips return to it. -/
theorem C6_next_prev_inverses_witness :
    Tree.SelectPrevious (Tree.SelectNext
        { TopLine := 0, Width := 0, Height := 9, ActiveItem := some [0, 0], Items := .cons (.mk "A" "" true true false false (.cons (flatLeaf "B") .nil)) (.cons (flatLeaf "C") .nil), initialized := true })
      = some { TopLine := 0, Width := 0, Height := 9, ActiveItem := some [0, 0], Items := .cons (.mk "A" "" true true false false (.cons (flatLeaf "B") .nil)) (.cons (flatLeaf "C") .nil), initialized := true } ∧
    (Tree.SelectPrevious
        { TopLine := 0, Width := 0, Height := 9, ActiveItem := some [0, 0], Items := .cons (.mk "A" "" true true false false (.cons (flatLeaf "B") .nil)) (.cons (flatLeaf "C") .nil), initialized := true }).map Tree.SelectNext
      = some { TopLine := 0, Width := 0, Height := 9, ActiveItem := some [0, 0], Items := .cons (.mk "A" "" true true false false (.cons (flatLeaf "B") .nil)) (.cons (flatLeaf "C") .nil), initialized := true } := by
  have h := C6_next_prev_inverses
    { TopLine := 0, Width := 0, Height := 9, ActiveItem := some [0, 0], Items := .cons (.mk "A" "" true true false false (.cons (flatLeaf "B") .nil)) (.cons (flatLeaf "C") .nil), initialized := true }
    [0, 0] (by rfl) (by decide) rfl
  exact ⟨h.1 (by decide), h.2.1 (by decide)⟩

/-- Counterexample to C6 as stated: an open node with children whose
`CanHaveChildren` flag is false (buildable via `NewItem` plus
`OpenChildren`).  Its sibling `[1]` is not the first visible row (the
visible rows are `[0], [0,0], [1]`), yet `SelectPrevious` then
`SelectNext` lands on `[0, 0]`, not back on `[1]`: the two moves are not
inverses there. -/
theorem C6_counterexample :
    TForest.flatForest (TForest.cons (TItem.mk "A" "" false true false false (.cons (flatLeaf "c") .nil)) (.cons (flatLeaf "N") .nil)) = [[0], [0, 0], [1]] ∧
    ((Tree.SelectPrevious
        { TopLine := 0, Width := 0, Height := 9, ActiveItem := some [1], Items := .cons (.mk "A" "" false true false false (.cons (flatLeaf "c") .nil)) (.cons (flatLeaf "N") .nil), initialized := true }).map
      (fun u => (Tree.SelectNext u).ActiveItem)) = some (some [0, 0]) ∧
    ([0, 0] : List Nat) ≠ [1] :=
  ⟨rfl, rfl, by decide⟩

end Teatree
